import Mathlib

/-!
# Verification of the AIDE editor-intelligence core

Shallow embedding of the algorithmic core of the repository:

* `CacheService` (src/cache-service.ts, shipped as `src/unnamed/part_002`):
  a TTL'd, LRU-bounded in-memory cache with prompt normalization.
* `ContextService` (src/ai-learning-tool/src/context-service.ts):
  related-file merging/deduplication and the per-URI context memo map.
* `SearchService` (src/ai-learning-tool/src/search-service.ts):
  literal text search, relevance scoring and result deduplication.
* `AiCompletionProvider` (src/ai-learning-tool/src/completion-provider.ts):
  the debounce / single-flight completion state machine.

Modelling conventions:

* `Date.now()` timestamps are integers (`Int`); every embedded operation
  takes the current time as an explicit argument, and all `Date.now()`
  calls inside one source-level method observe the same instant (the
  methods are synchronous in the source).
* JavaScript numbers that may be `NaN` (the `ttl` argument of
  `cacheContext`) are modelled by `JSNum`, an `Int` together with a `NaN`
  point; the only use the source makes of such a number before it is
  forced to an `Int` is the falsiness test in `ttl || this.defaultTtl`.
* JS `Map` objects are association lists with the JS insertion-order
  semantics: `set` of an existing key updates it in place, `set` of a
  fresh key appends, `delete` removes the key's entry.
* The MD5 digest used by `hashPrompt` is an arbitrary function parameter
  `digest : String → String`: every property proved below holds for every
  digest function, in particular for MD5 itself.  Concrete evaluations
  instantiate `digest := id`.
* `Array.prototype.sort` is stable (ES2019); it is modelled by Mathlib's
  stable `List.insertionSort`.
* Relevance scores (doubles in the source) are modelled as integers in
  TENTHS of the source's units (0.8 ↦ 8, a +10 bonus ↦ 100,
  `10 - len / 10` ↦ `100 - len`): a fixed positive scaling that maps
  every score constant exactly and preserves all comparisons, sums and
  the sort order.
-/

/-- A JavaScript number that may be `NaN`.  Only integral values occur in
the claims under study. -/
inductive JSNum where
  | nan : JSNum
  | num (n : Int) : JSNum
deriving DecidableEq, Repr

/-- JS falsiness for numbers: `0` and `NaN` are falsy. -/
def JSNum.isFalsy : JSNum → Bool
  | .nan => true
  | .num n => n = 0

/-! ## String helpers mirroring the JavaScript string primitives used -/

/-- The whitespace class of the JS regex `\s` (ASCII part; the prompts in
the claims are ASCII). -/
def isJsSpace (c : Char) : Bool :=
  c = ' ' || c = '\t' || c = '\n' || c = '\r' || c = '\x0b' || c = '\x0c'

/-- `String.prototype.replace(/\s+/g, ' ')` on a char list: every maximal
whitespace run becomes a single space.  The `Bool` argument records
whether the previous character belonged to a run. -/
def collapseWsAux : Bool → List Char → List Char
  | _, [] => []
  | prevWs, c :: rest =>
    if isJsSpace c then
      if prevWs then collapseWsAux true rest
      else ' ' :: collapseWsAux true rest
    else c :: collapseWsAux false rest

/-- `String.prototype.trim` (drop leading and trailing whitespace). -/
def jsTrimList (l : List Char) : List Char :=
  ((l.dropWhile isJsSpace).reverse.dropWhile isJsSpace).reverse

/-- `prompt.trim().toLowerCase().replace(/\s+/g, ' ')` — the prompt
normalization inside `CacheService.hashPrompt`. -/
def normalizePrompt (s : String) : String :=
  ⟨collapseWsAux false ((jsTrimList s.toList).map Char.toLower)⟩

/-- `hashPrompt` — MD5 of the normalized prompt; the digest is an
arbitrary function parameter (see the module docstring). -/
def hashPrompt (digest : String → String) (prompt : String) : String :=
  digest (normalizePrompt prompt)

/-! ## JS `Map` on string keys -/

/-- Association list standing for a JS `Map` (unique keys, insertion
order). -/
abbrev JsMap (β : Type) := List (String × β)

/-- `Map.prototype.get`. -/
def mapGet (m : JsMap β) (k : String) : Option β :=
  (m.find? (fun p => p.1 = k)).map (·.2)

/-- `Map.prototype.set`: update in place if the key exists, else append. -/
def mapSet (m : JsMap β) (k : String) (v : β) : JsMap β :=
  if m.any (fun p => p.1 = k) then
    m.map (fun p => if p.1 = k then (k, v) else p)
  else m ++ [(k, v)]

/-- `Map.prototype.delete`. -/
def mapDelete (m : JsMap β) (k : String) : JsMap β :=
  m.filter (fun p => p.1 ≠ k)

/-- The keys of a map, in insertion order. -/
def mapKeys (m : JsMap β) : List String := m.map Prod.fst

/-- Well-formedness of the association-list model: a JS `Map` never holds
two entries with the same key. -/
def NodupKeys (m : JsMap β) : Prop := (mapKeys m).Nodup

/-! ## CacheService (src/cache-service.ts) -/

/-- `CacheEntry<T>` from src/cache-service.ts. -/
structure CacheEntry (α : Type) where
  data : α
  timestamp : Int
  expiry : Int
  accessCount : Nat
  lastAccessed : Int
deriving DecidableEq, Repr

/-- `maxCacheSize` (source line 16). -/
def maxCacheSize : Nat := 1000

/-- `defaultTtl` — 5 minutes (source line 17). -/
def defaultTtl : Int := 5 * 60 * 1000

/-- `completionTtl` — 2 minutes (source line 18). -/
def completionTtl : Int := 2 * 60 * 1000

/-- The two cache namespaces of `CacheService`.  The completion cache
stores strings; the context cache stores `any`, modelled by a type
parameter `α`. -/
structure CacheService (α : Type) where
  completionCache : JsMap (CacheEntry String)
  contextCache : JsMap (CacheEntry α)
deriving Repr

/-- A freshly constructed `CacheService` (both maps empty). -/
def emptyCache : CacheService α := ⟨[], []⟩

/-- Ordering used by `enforceMaxSize`'s sort callback
`(a, b) => a[1].lastAccessed - b[1].lastAccessed` (ascending). -/
def laLE (a b : String × CacheEntry α) : Prop :=
  a.2.lastAccessed ≤ b.2.lastAccessed

instance : DecidableRel (@laLE α) := fun a b => by
  unfold laLE; infer_instance

instance : IsTotal (String × CacheEntry α) laLE :=
  ⟨fun a b => Int.le_total a.2.lastAccessed b.2.lastAccessed⟩

instance : IsTrans (String × CacheEntry α) laLE :=
  ⟨fun _ _ _ h h' => le_trans h h'⟩

/-- `enforceMaxSize` (source lines 285–300): if the map exceeds
`maxCacheSize`, stably sort the entries by `lastAccessed` ascending and
delete the first `size - maxCacheSize` keys. -/
def enforceMaxSize (cache : JsMap (CacheEntry α)) : JsMap (CacheEntry α) :=
  if cache.length ≤ maxCacheSize then cache
  else
    -- entries := the sorted array, toRemove := cache.size - this.maxCacheSize
    (((List.insertionSort laLE cache).take (cache.length - maxCacheSize)).map
      Prod.fst).foldl mapDelete cache

/-- `cacheCompletion` (source lines 38–50). -/
def cacheCompletion (digest : String → String) (now : Int)
    (prompt completion : String) (st : CacheService α) : CacheService α :=
  let key := hashPrompt digest prompt
  let entry : CacheEntry String :=
    { data := completion, timestamp := now, expiry := now + completionTtl
      accessCount := 0, lastAccessed := now }
  { st with completionCache := enforceMaxSize (mapSet st.completionCache key entry) }

/-- `getCachedCompletion` (source lines 55–74).  Returns the result
together with the post-state (the source mutates the map on expiry and
the entry statistics on a hit). -/
def getCachedCompletion (digest : String → String) (now : Int)
    (prompt : String) (st : CacheService α) : Option String × CacheService α :=
  let key := hashPrompt digest prompt
  match mapGet st.completionCache key with
  | none => (none, st)
  | some entry =>
    if now > entry.expiry then
      (none, { st with completionCache := mapDelete st.completionCache key })
    else
      let entry' := { entry with accessCount := entry.accessCount + 1, lastAccessed := now }
      (some entry.data, { st with completionCache := mapSet st.completionCache key entry' })

/-- `(ttl || this.defaultTtl)` in `cacheContext` (source line 83): an
absent, zero or `NaN` ttl is falsy and falls back to `defaultTtl`. -/
def ttlOrDefault : Option JSNum → Int
  | none => defaultTtl
  | some t => match t with
    | .nan => defaultTtl
    | .num n => if n = 0 then defaultTtl else n

/-- `cacheContext` (source lines 79–90). -/
def cacheContext (now : Int) (key : String) (data : α)
    (ttl : Option JSNum) (st : CacheService α) : CacheService α :=
  let entry : CacheEntry α :=
    { data := data, timestamp := now, expiry := now + ttlOrDefault ttl
      accessCount := 0, lastAccessed := now }
  { st with contextCache := enforceMaxSize (mapSet st.contextCache key entry) }

/-- `getCachedContext` (source lines 95–113). -/
def getCachedContext (now : Int) (key : String) (st : CacheService α) :
    Option α × CacheService α :=
  match mapGet st.contextCache key with
  | none => (none, st)
  | some entry =>
    if now > entry.expiry then
      (none, { st with contextCache := mapDelete st.contextCache key })
    else
      let entry' := { entry with accessCount := entry.accessCount + 1, lastAccessed := now }
      (some entry.data, { st with contextCache := mapSet st.contextCache key entry' })

/-- The `ttlMap` lookup with fallback
`ttlMap[provider] || this.completionTtl` (source lines 149–157). -/
def providerTtl : String → Int
  | "claude" => 5 * 60 * 1000
  | "openai" => 3 * 60 * 1000
  | "local" => 10 * 60 * 1000
  | "cursor" => 1 * 60 * 1000
  | _ => completionTtl

/-- `cacheProviderResponse` (source lines 148–168).  Stores under the
provider-prefixed key and — unlike `cacheCompletion` — performs no
`enforceMaxSize` call. -/
def cacheProviderResponse (digest : String → String) (now : Int)
    (provider prompt response : String) (st : CacheService α) : CacheService α :=
  let key := provider ++ ":" ++ hashPrompt digest prompt
  let entry : CacheEntry String :=
    { data := response, timestamp := now, expiry := now + providerTtl provider
      accessCount := 0, lastAccessed := now }
  { st with completionCache := mapSet st.completionCache key entry }

/-- `getCachedProviderResponse` (source lines 173–176).  The source
computes the provider-prefixed key but never uses it: it delegates to
`getCachedCompletion(prompt)`, which looks up the *bare* digest key. -/
def getCachedProviderResponse (digest : String → String) (now : Int)
    (provider prompt : String) (st : CacheService α) : Option String × CacheService α :=
  -- const key = `${provider}:${this.hashPrompt(prompt)}`;  (computed, unused)
  getCachedCompletion digest now prompt st

/-! ## Lemmas about the `JsMap` model -/

theorem find?_cons_pos (a : γ) (l : List γ) (p : γ → Bool) (h : p a = true) :
    (a :: l).find? p = some a := by
  simp only [List.find?, h]

theorem find?_cons_neg (a : γ) (l : List γ) (p : γ → Bool) (h : p a = false) :
    (a :: l).find? p = l.find? p := by
  simp only [List.find?, h]

theorem find?_append_or (xs ys : List γ) (p : γ → Bool) :
    (xs ++ ys).find? p = ((xs.find? p).orElse (fun _ => ys.find? p)) := by
  induction xs with
  | nil => rfl
  | cons a l ih =>
    cases hc : p a
    · rw [List.cons_append, find?_cons_neg a _ p hc, find?_cons_neg a _ p hc, ih]
    · rw [List.cons_append, find?_cons_pos a _ p hc, find?_cons_pos a _ p hc]
      rfl

theorem find?_update_self (m : JsMap β) (k : String) (v : β)
    (hany : m.any (fun p => p.1 = k)) :
    (m.map (fun p => if p.1 = k then (k, v) else p)).find? (fun p => p.1 = k)
      = some (k, v) := by
  induction m with
  | nil => simp at hany
  | cons p rest ih =>
    by_cases hpk : p.1 = k
    · rw [List.map_cons, if_pos hpk, find?_cons_pos _ _ _ (by simp)]
    · rw [List.any_cons] at hany
      simp only [hpk, decide_eq_true_eq, Bool.false_or, decide_False] at hany
      rw [List.map_cons, if_neg hpk, find?_cons_neg _ _ _ (by simpa using hpk)]
      exact ih hany

theorem find?_update_ne (m : JsMap β) (k k' : String) (v : β) (h : k' ≠ k) :
    (m.map (fun p => if p.1 = k then (k, v) else p)).find? (fun p => p.1 = k')
      = m.find? (fun p => p.1 = k') := by
  induction m with
  | nil => rfl
  | cons p rest ih =>
    by_cases hpk : p.1 = k
    · rw [List.map_cons, if_pos hpk,
        find?_cons_neg _ _ _ (by simpa using Ne.symm h),
        find?_cons_neg _ _ _ (by simpa [hpk] using Ne.symm h)]
      exact ih
    · rw [List.map_cons, if_neg hpk]
      cases hc : (decide (p.1 = k') : Bool)
      · rw [find?_cons_neg _ _ _ (by simpa using hc), find?_cons_neg _ _ _ (by simpa using hc)]
        exact ih
      · rw [find?_cons_pos _ _ _ (by simpa using hc), find?_cons_pos _ _ _ (by simpa using hc)]

theorem mapGet_mapSet_self (m : JsMap β) (k : String) (v : β) :
    mapGet (mapSet m k v) k = some v := by
  unfold mapSet
  split
  · rename_i hany
    rw [mapGet, find?_update_self m k v hany]
    rfl
  · rename_i hany
    have hnone : m.find? (fun p => p.1 = k) = none := by
      refine List.find?_eq_none.mpr ?_
      intro x hx hpx
      exact hany (List.any_eq_true.mpr ⟨x, hx, hpx⟩)
    rw [mapGet, find?_append_or, hnone, find?_cons_pos _ _ _ (by simp)]
    rfl

theorem mapGet_mapSet_ne (m : JsMap β) (k k' : String) (v : β) (h : k' ≠ k) :
    mapGet (mapSet m k v) k' = mapGet m k' := by
  unfold mapSet
  split
  · rw [mapGet, find?_update_ne m k k' v h]
    rfl
  · rw [mapGet, find?_append_or, find?_cons_neg _ _ _ (by simpa using Ne.symm h)]
    cases hf : m.find? (fun p => decide (p.1 = k')) <;> rw [mapGet, hf] <;> rfl

theorem length_mapSet_le (m : JsMap β) (k : String) (v : β) :
    (mapSet m k v).length ≤ m.length + 1 := by
  unfold mapSet
  split
  · simp
  · simp

theorem mapGet_mapDelete_self (m : JsMap β) (k : String) :
    mapGet (mapDelete m k) k = none := by
  rw [mapGet, mapDelete, List.find?_eq_none.mpr]
  · rfl
  · intro x hx
    simp only [List.mem_filter, decide_eq_true_eq] at hx ⊢
    have := hx.2
    simp only [decide_not, Bool.not_eq_true', decide_eq_false_iff_not] at this
    exact fun hxx => absurd hxx this

theorem mapKeys_mapSet (m : JsMap β) (k : String) (v : β) :
    mapKeys (mapSet m k v)
      = if m.any (fun p => p.1 = k) then mapKeys m else mapKeys m ++ [k] := by
  unfold mapSet mapKeys
  split
  · rw [List.map_map]
    refine List.map_congr_left ?_
    intro p _
    by_cases hpk : p.1 = k <;> simp [hpk]
  · simp

theorem nodupKeys_mapSet (m : JsMap β) (k : String) (v : β) (h : NodupKeys m) :
    NodupKeys (mapSet m k v) := by
  unfold NodupKeys
  rw [mapKeys_mapSet]
  split
  · exact h
  · rename_i hany
    have hk : k ∉ mapKeys m := by
      intro hmem
      rcases List.mem_map.mp hmem with ⟨p, hp, hpk⟩
      exact hany (List.any_eq_true.mpr ⟨p, hp, by simp [hpk]⟩)
    simp only [List.nodup_append, List.nodup_cons, List.not_mem_nil, not_false_iff,
      List.nodup_nil, and_true, List.disjoint_singleton]
    exact ⟨h, by simpa using hk⟩

theorem foldl_mapDelete_eq_filter (ks : List String) (m : JsMap β) :
    ks.foldl mapDelete m = m.filter (fun p => !ks.contains p.1) := by
  induction ks generalizing m with
  | nil => simp
  | cons k ks ih =>
    rw [List.foldl_cons, ih, mapDelete, List.filter_filter]
    congr 1
    funext p
    by_cases h : p.1 = k <;> simp [h, List.contains_cons]

/-! ## Lemmas about `enforceMaxSize` -/

theorem enforceMaxSize_of_le (m : JsMap (CacheEntry α)) (h : m.length ≤ maxCacheSize) :
    enforceMaxSize m = m := by
  rw [enforceMaxSize, if_pos h]

theorem enforceMaxSize_perm (m : JsMap (CacheEntry α)) (hn : NodupKeys m)
    (hgt : maxCacheSize < m.length) :
    List.Perm (enforceMaxSize m)
      ((List.insertionSort laLE m).drop (m.length - maxCacheSize)) := by
  rw [enforceMaxSize, if_neg (by omega), foldl_mapDelete_eq_filter]
  set s := List.insertionSort laLE m with hs
  set n := m.length - maxCacheSize with hn'
  set P := (fun p : String × CacheEntry α => !((s.take n).map Prod.fst).contains p.1) with hP
  have hperm : List.Perm s m := List.perm_insertionSort _ _
  have hkeys : (s.map Prod.fst).Nodup :=
    (List.Perm.nodup_iff (List.Perm.map Prod.fst hperm)).mpr hn
  have hsplit : (s.take n).map Prod.fst ++ (s.drop n).map Prod.fst = s.map Prod.fst := by
    rw [← List.map_append, List.take_append_drop]
  have hdisj : ∀ x ∈ (s.take n).map Prod.fst, x ∉ (s.drop n).map Prod.fst := by
    intro x hx1 hx2
    rw [← hsplit] at hkeys
    exact (List.nodup_append.mp hkeys).2.2 hx1 hx2
  have h2 : (s.take n).filter P = [] := by
    refine List.filter_eq_nil_iff.mpr ?_
    intro p hp
    have hc : ((s.take n).map Prod.fst).contains p.1 = true :=
      List.elem_iff.mpr (List.mem_map_of_mem Prod.fst hp)
    simp only [hP, hc, Bool.not_true]
    exact Bool.false_ne_true
  have h3 : (s.drop n).filter P = s.drop n := by
    refine List.filter_eq_self.mpr ?_
    intro p hp
    have hnc : p.1 ∉ (s.take n).map Prod.fst := by
      intro hmem
      exact hdisj p.1 hmem (List.mem_map_of_mem Prod.fst hp)
    have hcf : ((s.take n).map Prod.fst).contains p.1 = false := by
      rw [← Bool.not_eq_true]
      intro hct
      exact hnc (List.elem_iff.mp hct)
    simp only [hP, hcf, Bool.not_false]
  have c1 : List.Perm (m.filter P) (s.filter P) := (List.Perm.filter P hperm).symm
  have c2 : s.filter P = s.drop n := by
    conv_lhs => rw [← List.take_append_drop n s]
    rw [List.filter_append, h2, h3, List.nil_append]
  exact c2 ▸ c1

theorem enforceMaxSize_length_le (m : JsMap (CacheEntry α)) (hn : NodupKeys m) :
    (enforceMaxSize m).length ≤ maxCacheSize := by
  by_cases h : m.length ≤ maxCacheSize
  · rw [enforceMaxSize_of_le m h]
    exact h
  · have hlen := (enforceMaxSize_perm m hn (by omega)).length_eq
    rw [hlen, List.length_drop, List.length_insertionSort]
    omega

theorem enforceMaxSize_oldest (m : JsMap (CacheEntry α)) (hn : NodupKeys m) :
    ∀ p ∈ m, p ∉ enforceMaxSize m → ∀ q ∈ enforceMaxSize m,
      p.2.lastAccessed ≤ q.2.lastAccessed := by
  intro p hp hpn q hq
  by_cases h : m.length ≤ maxCacheSize
  · rw [enforceMaxSize_of_le m h] at hpn
    exact absurd hp hpn
  · have hperm := enforceMaxSize_perm m hn (by omega)
    set s := List.insertionSort laLE m with hs
    set n := m.length - maxCacheSize with hn'
    have hps : p ∈ s := (List.perm_insertionSort laLE m).mem_iff.mpr hp
    have hpd : p ∉ s.drop n := fun hm => hpn (hperm.mem_iff.mpr hm)
    have hpt : p ∈ s.take n := by
      rw [← List.take_append_drop n s] at hps
      rcases List.mem_append.mp hps with h1 | h2
      · exact h1
      · exact absurd h2 hpd
    have hqd : q ∈ s.drop n := hperm.mem_iff.mp hq
    have hsorted : List.Pairwise laLE s := List.sorted_insertionSort laLE m
    rw [← List.take_append_drop n s] at hsorted
    exact (List.pairwise_append.mp hsorted).2.2 p hpt q hqd

/-! ## Claims C1–C5: the cache store -/

/-- C1 — Provider-response round-trip.  The claim is FALSE on the code:
`cacheProviderResponse` stores under the key `provider + ":" + digest`,
while `getCachedProviderResponse` delegates to `getCachedCompletion`,
which looks up the bare `digest` key.  Starting from an empty cache, the
read therefore misses for every provider, prompt, response, time and
digest function (the two keys differ because their lengths differ). -/
theorem providerResponse_roundtrip_broken (digest : String → String)
    (now now' : Int) (provider prompt response : String) :
    (getCachedProviderResponse digest now' provider prompt
      (cacheProviderResponse digest now provider prompt response
        (emptyCache (α := String)))).1 = none := by
  unfold cacheProviderResponse getCachedProviderResponse getCachedCompletion emptyCache
  have hkey : hashPrompt digest prompt ≠ provider ++ ":" ++ hashPrompt digest prompt := by
    intro h
    have hlen := congrArg String.length h
    have hone : (":" : String).length = 1 := rfl
    simp only [String.length_append, hone] at hlen
    omega
  simp only [mapSet, List.any_nil, List.nil_append, Bool.false_eq_true, if_false]
  rw [mapGet, find?_cons_neg _ _ _ (by simp [Ne.symm hkey])]
  rfl

/-- C2 counterexample state: a completion cache already holding exactly
`maxCacheSize` distinct keys `"k0" … "k999"`. -/
def fullCompletionMap : JsMap (CacheEntry String) :=
  (List.range maxCacheSize).map
    (fun i => ("k" ++ toString i, ⟨"d", 0, 1000000000, 0, 0⟩))

/-- C2 — counterexample.  The size-bound invariant, as stated, covers
`cacheProviderResponse`; but that method performs no `enforceMaxSize`
call, so inserting a fresh provider key into a full (1000-entry, bound
satisfied) cache leaves 1001 entries. -/
theorem providerResponse_exceeds_bound :
    fullCompletionMap.length = maxCacheSize ∧
    (cacheProviderResponse id 0 "claude" "p" "r"
      (⟨fullCompletionMap, []⟩ : CacheService String)).completionCache.length
      = maxCacheSize + 1 := by
  have hfresh : ∀ p ∈ fullCompletionMap, p.1 ≠ "claude:" ++ hashPrompt id "p" := by
    intro p hp
    rcases List.mem_map.mp hp with ⟨i, _, rfl⟩
    intro h
    have h2 : ('k' :: (toString i).data)
        = ("claude:" ++ hashPrompt id "p").data := congrArg String.data h
    have h3 : ("claude:" ++ hashPrompt id "p").data
        = 'c' :: 'l' :: 'a' :: 'u' :: 'd' :: 'e' :: ':' :: (hashPrompt id "p").data := rfl
    rw [h3] at h2
    exact absurd (List.head_eq_of_cons_eq h2) (by decide)
  constructor
  · simp [fullCompletionMap]
  · rw [cacheProviderResponse]
    simp only []
    rw [mapSet, if_neg ?hne]
    · simp [fullCompletionMap]
    case hne =>
      intro hany
      rcases List.any_eq_true.mp hany with ⟨p, hp, hpk⟩
      exact hfresh p hp (by simpa using hpk)

/-- C2 (amended) — size bound and LRU eviction hold for the mutating
operations that call `enforceMaxSize` (`cacheCompletion` and
`cacheContext`): afterwards the touched map holds at most `maxCacheSize`
entries, and any entry present after the insertion but evicted by the
bound has a `lastAccessed` no newer than that of every surviving entry.
`cacheProviderResponse` performs no such enforcement — see
`providerResponse_exceeds_bound`. -/
theorem size_bound_after_enforcing_ops (digest : String → String) (now : Int)
    (prompt completion ckey : String) (data : α) (ttl : Option JSNum)
    (st : CacheService α)
    (h1 : NodupKeys st.completionCache) (h2 : NodupKeys st.contextCache) :
    ((cacheCompletion digest now prompt completion st).completionCache.length
        ≤ maxCacheSize ∧
      ∀ p ∈ mapSet st.completionCache (hashPrompt digest prompt)
          ⟨completion, now, now + completionTtl, 0, now⟩,
        p ∉ (cacheCompletion digest now prompt completion st).completionCache →
        ∀ q ∈ (cacheCompletion digest now prompt completion st).completionCache,
          p.2.lastAccessed ≤ q.2.lastAccessed) ∧
    ((cacheContext now ckey data ttl st).contextCache.length ≤ maxCacheSize ∧
      ∀ p ∈ mapSet st.contextCache ckey ⟨data, now, now + ttlOrDefault ttl, 0, now⟩,
        p ∉ (cacheContext now ckey data ttl st).contextCache →
        ∀ q ∈ (cacheContext now ckey data ttl st).contextCache,
          p.2.lastAccessed ≤ q.2.lastAccessed) := by
  have hn1 : NodupKeys (mapSet st.completionCache (hashPrompt digest prompt)
      ⟨completion, now, now + completionTtl, 0, now⟩) :=
    nodupKeys_mapSet _ _ _ h1
  have hn2 : NodupKeys (mapSet st.contextCache ckey
      ⟨data, now, now + ttlOrDefault ttl, 0, now⟩) :=
    nodupKeys_mapSet _ _ _ h2
  refine ⟨⟨?_, ?_⟩, ⟨?_, ?_⟩⟩
  · exact enforceMaxSize_length_le _ hn1
  · exact enforceMaxSize_oldest _ hn1
  · exact enforceMaxSize_length_le _ hn2
  · exact enforceMaxSize_oldest _ hn2

/-- Witness for `size_bound_after_enforcing_ops` at a concrete input. -/
theorem size_bound_after_enforcing_ops_witness :
    NodupKeys (emptyCache (α := String)).completionCache ∧
    NodupKeys (emptyCache (α := String)).contextCache ∧
    (cacheCompletion id 0 "p" "c" (emptyCache (α := String))).completionCache.length
      ≤ maxCacheSize := by
  refine ⟨by constructor, by constructor, ?_⟩
  exact (size_bound_after_enforcing_ops id 0 "p" "c" "k" "d" none
    (emptyCache (α := String)) (by constructor) (by constructor)).1.1

/-- C3 — counterexample.  A `ttl` of `0` does NOT produce an
already-expired entry: `0` is falsy in JS, so `ttl || this.defaultTtl`
replaces it by the 5-minute default, and the very next
`getCachedContext` returns the stored value instead of `null`. -/
theorem zero_ttl_not_expired :
    (getCachedContext 0 "k"
      (cacheContext 0 "k" "v" (some (.num 0)) (emptyCache (α := String)))).1
      = some "v" := by decide

/-- C3 (amended) — TTL edge semantics of `cacheContext`: a strictly
negative integer ttl yields an entry that is already expired, so any
read at or after the write time returns `null`; a ttl of `0` or `NaN`
(and an omitted ttl) is falsy, falls back to `defaultTtl`, and produces
a live entry expiring at `now + defaultTtl`.  All cases are total — in
this embedding every operation is a function, so no TTL value can raise
an exception. -/
theorem cacheContext_ttl_semantics (now now' : Int) (ckey : String) (data : α)
    (st : CacheService α) (hroom : st.contextCache.length < maxCacheSize) :
    (∀ n : Int, n < 0 → now ≤ now' →
      (getCachedContext now' ckey
        (cacheContext now ckey data (some (.num n)) st)).1 = none) ∧
    (∀ t : Option JSNum, (t.map JSNum.isFalsy ≠ some false) →
      mapGet (cacheContext now ckey data t st).contextCache ckey
        = some ⟨data, now, now + defaultTtl, 0, now⟩) := by
  have hsize : ∀ e : CacheEntry α,
      enforceMaxSize (mapSet st.contextCache ckey e) = mapSet st.contextCache ckey e :=
    fun e => enforceMaxSize_of_le _ (le_trans (length_mapSet_le _ _ _) (by omega))
  constructor
  · intro n hneg hle
    rw [cacheContext]
    simp only [hsize]
    rw [getCachedContext]
    simp only [mapGet_mapSet_self]
    rw [if_pos ?_]
    have : ttlOrDefault (some (.num n)) = n := by
      simp [ttlOrDefault, show n ≠ 0 by omega]
    rw [this]
    omega
  · intro t ht
    have htd : ttlOrDefault t = defaultTtl := by
      match t with
      | none => rfl
      | some .nan => rfl
      | some (.num n) =>
        have : n = 0 := by
          by_contra hne
          exact ht (by simp [Option.map, JSNum.isFalsy, hne])
        simp [ttlOrDefault, this]
    rw [cacheContext]
    simp only [htd, hsize]
    exact mapGet_mapSet_self _ _ _

/-- Witness for `cacheContext_ttl_semantics` at concrete inputs. -/
theorem cacheContext_ttl_semantics_witness :
    (getCachedContext 0 "k"
      (cacheContext 0 "k" "v" (some (.num (-5))) (emptyCache (α := String)))).1 = none ∧
    mapGet (cacheContext 0 "k" "v" (some .nan)
      (emptyCache (α := String))).contextCache "k"
      = some ⟨"v", 0, 0 + defaultTtl, 0, 0⟩ := by
  constructor
  · exact (cacheContext_ttl_semantics 0 0 "k" "v" (emptyCache (α := String))
      (by decide)).1 (-5) (by decide) (by decide)
  · exact (cacheContext_ttl_semantics 0 0 "k" "v" (emptyCache (α := String))
      (by decide)).2 (some .nan) (by decide)

/-- C4 — counterexample.  The expiry test is strict (`Date.now() >
entry.expiry`): at `now = expiry` the entry is still served.  Concretely
an entry cached at time 0 carries `expiry = 120000`, and a read at
exactly `now = 120000` returns the stored value, where the claim
("absent whenever now ≥ expiry") demands `null`. -/
theorem expiry_boundary_returns_value :
    mapGet (cacheCompletion id 0 "p" "v"
        (emptyCache (α := String))).completionCache (hashPrompt id "p")
      = some ⟨"v", 0, 120000, 0, 0⟩ ∧
    (getCachedCompletion id 120000 "p"
      (cacheCompletion id 0 "p" "v" (emptyCache (α := String)))).1 = some "v" := by
  decide

/-- C4 (amended) — TTL read semantics: a `get` returns the stored value
whenever `now ≤ expiry`, and returns `null` whenever `now > expiry`
(strict comparison); on such an expired read the entry is removed from
the store.  Holds for `getCachedCompletion` and `getCachedContext`. -/
theorem ttl_read_semantics (digest : String → String) (now : Int)
    (prompt ckey : String) (st : CacheService α)
    (e : CacheEntry String) (e' : CacheEntry α)
    (hc : mapGet st.completionCache (hashPrompt digest prompt) = some e)
    (hx : mapGet st.contextCache ckey = some e') :
    ((now ≤ e.expiry → (getCachedCompletion digest now prompt st).1 = some e.data) ∧
     (e.expiry < now → (getCachedCompletion digest now prompt st).1 = none ∧
        mapGet (getCachedCompletion digest now prompt st).2.completionCache
          (hashPrompt digest prompt) = none)) ∧
    ((now ≤ e'.expiry → (getCachedContext now ckey st).1 = some e'.data) ∧
     (e'.expiry < now → (getCachedContext now ckey st).1 = none ∧
        mapGet (getCachedContext now ckey st).2.contextCache ckey = none)) := by
  refine ⟨⟨?_, ?_⟩, ⟨?_, ?_⟩⟩
  · intro hle
    rw [getCachedCompletion]
    simp only [hc]
    rw [if_neg (by omega)]
  · intro hlt
    rw [getCachedCompletion]
    simp only [hc]
    rw [if_pos (by omega)]
    exact ⟨rfl, mapGet_mapDelete_self _ _⟩
  · intro hle
    rw [getCachedContext]
    simp only [hx]
    rw [if_neg (by omega)]
  · intro hlt
    rw [getCachedContext]
    simp only [hx]
    rw [if_pos (by omega)]
    exact ⟨rfl, mapGet_mapDelete_self _ _⟩

/-- Witness for `ttl_read_semantics` at concrete inputs. -/
theorem ttl_read_semantics_witness :
    (getCachedCompletion id 5 "p"
      (⟨[(hashPrompt id "p", ⟨"v", 0, 10, 0, 0⟩)],
        [("k", ⟨"w", 0, 3, 0, 0⟩)]⟩ : CacheService String)).1 = some "v" ∧
    (getCachedContext 5 "k"
      (⟨[(hashPrompt id "p", ⟨"v", 0, 10, 0, 0⟩)],
        [("k", ⟨"w", 0, 3, 0, 0⟩)]⟩ : CacheService String)).1 = none := by
  have h := ttl_read_semantics id 5 "p" "k"
    (⟨[(hashPrompt id "p", ⟨"v", 0, 10, 0, 0⟩)],
      [("k", ⟨"w", 0, 3, 0, 0⟩)]⟩ : CacheService String)
    ⟨"v", 0, 10, 0, 0⟩ ⟨"w", 0, 3, 0, 0⟩ (by decide) (by decide)
  exact ⟨h.1.1 (by decide), (h.2.2 (by decide)).1⟩

/-- C5 — key-normalization collision.  Two prompts that differ only in
leading/trailing whitespace, internal whitespace runs, or letter case
(formalized: equal `normalizePrompt` normal forms — trim, case-fold,
collapse whitespace runs) hash to the same key for every digest
function, so caching under one and reading under the other within the
TTL returns the cached completion.  The `hroom` hypothesis ensures the
insertion itself cannot push the map over the LRU bound and evict the
fresh entry (the claim presumes no intervening eviction). -/
theorem normalized_prompt_roundtrip (digest : String → String)
    (p1 p2 x : String) (st : CacheService α) (t t' : Int)
    (hnorm : normalizePrompt p1 = normalizePrompt p2)
    (hroom : st.completionCache.length < maxCacheSize)
    (hfresh : t' ≤ t + completionTtl) :
    (getCachedCompletion digest t' p2 (cacheCompletion digest t p1 x st)).1
      = some x := by
  have hkey : hashPrompt digest p2 = hashPrompt digest p1 := by
    rw [hashPrompt, hashPrompt, hnorm]
  have hsize : enforceMaxSize (mapSet st.completionCache (hashPrompt digest p1)
        ⟨x, t, t + completionTtl, 0, t⟩)
      = mapSet st.completionCache (hashPrompt digest p1) ⟨x, t, t + completionTtl, 0, t⟩ :=
    enforceMaxSize_of_le _ (le_trans (length_mapSet_le _ _ _) (by omega))
  rw [cacheCompletion]
  simp only [hsize]
  rw [getCachedCompletion]
  simp only [hkey, mapGet_mapSet_self]
  rw [if_neg (by omega)]

/-- Witness for `normalized_prompt_roundtrip`: the spec's own scenario
`cacheCompletion("  Test  Prompt  ", x)` then
`getCachedCompletion("test prompt")`. -/
theorem normalized_prompt_roundtrip_witness :
    (getCachedCompletion id 0 "test prompt"
      (cacheCompletion id 0 "  Test  Prompt  " "x" (emptyCache (α := String)))).1
      = some "x" :=
  normalized_prompt_roundtrip id "  Test  Prompt  " "test prompt" "x"
    (emptyCache (α := String)) 0 0 (by decide) (by decide) (by decide)

/-! ## ContextService (src/ai-learning-tool/src/context-service.ts) -/

/-- `FileContext` from context-service.ts.  `uri` is the string form of
the `vscode.Uri`; scores are rationals standing for the JS doubles. -/
structure FileContext where
  uri : String
  fileName : String
  relativePath : String
  content : String
  language : String
  isOpen : Bool
  relevanceScore : Int
deriving DecidableEq, Repr

/-- `WorkspaceContext` from context-service.ts. -/
structure WorkspaceContext where
  currentFile : Option FileContext
  relatedFiles : List FileContext
  imports : List String
  projectType : String
  workspaceName : String
deriving DecidableEq, Repr

/-- `maxRelatedFiles` (context-service.ts line 25). -/
def maxRelatedFiles : Nat := 5

/-- `maxFileSize` (context-service.ts line 26). -/
def maxFileSize : Nat := 50000

/-- `deduplicateFiles` (context-service.ts lines 431–441): filter with a
mutable `seen` set — keeps the FIRST occurrence of each uri. -/
def dedupFilesGo (seen : List String) : List FileContext → List FileContext
  | [] => []
  | f :: rest =>
    if seen.contains f.uri then dedupFilesGo seen rest
    else f :: dedupFilesGo (f.uri :: seen) rest

/-- `deduplicateFiles` entry point (empty `seen` set). -/
def deduplicateFiles (files : List FileContext) : List FileContext :=
  dedupFilesGo [] files

/-- Descending-by-`relevanceScore` comparison used by the sort callback
`(a, b) => b.relevanceScore - a.relevanceScore`. -/
def scoreGE (a b : FileContext) : Prop :=
  b.relevanceScore ≤ a.relevanceScore

instance : DecidableRel scoreGE := fun a b => by
  unfold scoreGE; infer_instance

instance : IsTotal FileContext scoreGE :=
  ⟨fun a b => le_total b.relevanceScore a.relevanceScore⟩

instance : IsTrans FileContext scoreGE :=
  ⟨fun _ _ _ h h' => le_trans h' h⟩

/-- `findRelatedFiles` (context-service.ts lines 100–126), as a function
of the four candidate pools (which the source gathers from editor/FS
I/O): concatenate in source order (open tabs, same directory, imports,
similar names), deduplicate keeping the first occurrence per uri, sort
descending by relevance (stable), truncate to `maxRelatedFiles`. -/
def findRelatedFiles (openFiles sameDirectoryFiles importedFiles similarFiles :
    List FileContext) : List FileContext :=
  let relatedFiles := openFiles ++ sameDirectoryFiles ++ importedFiles ++ similarFiles
  let uniqueFiles := deduplicateFiles relatedFiles
  (List.insertionSort scoreGE uniqueFiles).take maxRelatedFiles

theorem dedupFilesGo_first (files : List FileContext) (seen : List String) :
    ∀ g ∈ dedupFilesGo seen files,
      seen.contains g.uri = false ∧
      files.find? (fun f => f.uri = g.uri) = some g := by
  induction files generalizing seen with
  | nil =>
    intro g hg
    cases hg
  | cons f rest ih =>
    intro g hg
    rw [dedupFilesGo] at hg
    by_cases hc : seen.contains f.uri
    · rw [if_pos hc] at hg
      obtain ⟨h1, h2⟩ := ih seen g hg
      have hne : ¬ f.uri = g.uri := by
        intro h
        rw [h, h1] at hc
        cases hc
      exact ⟨h1, by rw [find?_cons_neg _ _ _ (by simpa using hne)]; exact h2⟩
    · rw [if_neg hc] at hg
      rcases List.mem_cons.mp hg with rfl | hg'
      · exact ⟨by simpa using hc, by rw [find?_cons_pos _ _ _ (by simp)]⟩
      · obtain ⟨h1, h2⟩ := ih (f.uri :: seen) g hg'
        simp only [List.contains_cons, Bool.or_eq_false_iff, beq_eq_false_iff_ne,
          ne_eq] at h1
        exact ⟨h1.2, by
          rw [find?_cons_neg _ _ _ (by simpa using fun h => h1.1 h.symm)]
          exact h2⟩

/-- C6 — counterexample.  A file that occurs both in the same-directory
pool (weight 0.6) and in the imported-files pool (weight 0.7) keeps the
0.6 entry: `deduplicateFiles` runs BEFORE the relevance sort and keeps
the first occurrence in pool order, not the highest-scoring one. -/
theorem related_merge_keeps_first_not_highest :
    findRelatedFiles []
        [⟨"file:///a/util.ts", "util.ts", "util.ts", "c", "typescript", false, 6⟩]
        [⟨"file:///a/util.ts", "util.ts", "util.ts", "c", "typescript", false, 7⟩]
        []
      = [⟨"file:///a/util.ts", "util.ts", "util.ts", "c", "typescript", false, 6⟩]
      ∧ (6 : Int) < 7 := by
  constructor
  · rfl
  · decide

/-- C6 (amended) — the related-files list is formed by concatenating the
four pools in source order (open tabs, same directory, imports, similar
names), deduplicating by uri keeping the FIRST occurrence (not the
highest-scoring duplicate), sorting descending by `relevanceScore`
(stably), and truncating to at most 5 entries.  Every returned file is
the first entry with its uri in the concatenation. -/
theorem relatedFiles_merge_spec (a b c d : List FileContext) :
    (findRelatedFiles a b c d).length ≤ maxRelatedFiles ∧
    List.Pairwise scoreGE (findRelatedFiles a b c d) ∧
    ∀ g ∈ findRelatedFiles a b c d,
      (a ++ b ++ c ++ d).find? (fun f => f.uri = g.uri) = some g := by
  refine ⟨?_, ?_, ?_⟩
  · rw [findRelatedFiles]
    exact List.length_take_le _ _
  · rw [findRelatedFiles]
    exact List.Pairwise.sublist (List.take_sublist _ _)
      (List.sorted_insertionSort scoreGE (deduplicateFiles (a ++ b ++ c ++ d)))
  · intro g hg
    rw [findRelatedFiles] at hg
    have hmem : g ∈ deduplicateFiles (a ++ b ++ c ++ d) :=
      (List.mem_insertionSort scoreGE).mp ((List.take_sublist _ _).mem hg)
    exact (dedupFilesGo_first _ [] g hmem).2

/-- `String.prototype.startsWith`. -/
def jsStartsWith (s pre : String) : Bool :=
  pre.toList.isPrefixOf s.toList

/-- Substring occurrence on char lists (helper for `jsIncludes`). -/
def listIsInfix (pat : List Char) : List Char → Bool
  | [] => pat.isEmpty
  | c :: rest => pat.isPrefixOf (c :: rest) || listIsInfix pat rest

/-- `String.prototype.includes`. -/
def jsIncludes (s pat : String) : Bool :=
  listIsInfix pat.toList s.toList

/-- The final filter of `extractImports` (context-service.ts line 353):
`imports.filter(imp => imp && !imp.startsWith('.') &&
!imp.includes('node_modules'))`.  The per-language regex scans that
produce the raw specifier list involve JS regex engines and are left
abstract: the results below hold for EVERY raw list. -/
def importFilter (rawImports : List String) : List String :=
  rawImports.filter
    (fun imp => imp ≠ "" && !jsStartsWith imp "." && !jsIncludes imp "node_modules")

/-- The extension list tried by `resolveImportPath`
(context-service.ts line 363). -/
def resolveExtensions : List String :=
  [".js", ".ts", ".jsx", ".tsx", ".py", ".java"]

/-- `resolveImportPath` (context-service.ts lines 356–377): only
relative specifiers (`./` or `../`) are resolved; `path.resolve` and
`fs.stat` are abstract parameters (`resolve`, `statOk`).  Everything
else returns `null`. -/
def resolveImportPath (resolve : String → String → String)
    (statOk : String → Bool) (importPath currentDir : String) : Option String :=
  if jsStartsWith importPath "./" || jsStartsWith importPath "../" then
    (resolveExtensions.find?
        (fun ext => statOk (resolve currentDir importPath ++ ext))).map
      (fun ext => resolve currentDir importPath ++ ext)
  else none

/-- Builds the `FileContext` pushed by `findImportedFiles`
(context-service.ts lines 240–248). -/
def mkImportedFile (uri relativePath content language : String) : FileContext :=
  ⟨uri, uri, relativePath, content, language, false, 7⟩

/-- `findImportedFiles` (context-service.ts lines 222–256): iterate the
(filtered) imports of the current file, resolve each relative path,
open the resolved document (abstract `openDoc`, also yielding the
relative path), skip oversized files, and collect weight-0.7 contexts. -/
def findImportedFiles (resolve : String → String → String)
    (statOk : String → Bool) (openDoc : String → Option (String × String × String))
    (currentDir : String) : List String → List FileContext
  | [] => []
  | importPath :: rest =>
    let tail := findImportedFiles resolve statOk openDoc currentDir rest
    match resolveImportPath resolve statOk importPath currentDir with
    | none => tail
    | some uri =>
      match openDoc uri with
      | none => tail
      | some (content, language, relativePath) =>
        if content.length > maxFileSize then tail
        else mkImportedFile uri relativePath content language :: tail

theorem findImportedFiles_nil_of_unresolved (resolve : String → String → String)
    (statOk : String → Bool) (openDoc : String → Option (String × String × String))
    (currentDir : String) (l : List String)
    (hall : ∀ imp ∈ l, resolveImportPath resolve statOk imp currentDir = none) :
    findImportedFiles resolve statOk openDoc currentDir l = [] := by
  induction l with
  | nil => rfl
  | cons i rest ih =>
    rw [findImportedFiles, hall i (List.mem_cons_self _ _)]
    exact ih (fun imp hmem => hall imp (List.mem_cons_of_mem _ hmem))

/-- C7 — the imported-files pool is ALWAYS empty: `extractImports`
filters out every specifier that starts with `'.'`, yet
`resolveImportPath` resolves only specifiers starting with `'./'` or
`'../'`.  The composition returns no file for any raw import list, any
path resolver, any file system and any document reader — so no resolved
relative import is ever included at weight 0.7. -/
theorem findImportedFiles_empty (resolve : String → String → String)
    (statOk : String → Bool) (openDoc : String → Option (String × String × String))
    (currentDir : String) (rawImports : List String) :
    findImportedFiles resolve statOk openDoc currentDir
      (importFilter rawImports) = [] := by
  refine findImportedFiles_nil_of_unresolved resolve statOk openDoc currentDir _ ?_
  intro imp hmem
  have hfilt := List.of_mem_filter hmem
  simp only [Bool.and_eq_true, Bool.not_eq_true'] at hfilt
  have hnostart : jsStartsWith imp "." = false := hfilt.1.2
  have h1 : jsStartsWith imp "./" = false := by
    cases himp : imp.toList with
    | nil => rw [jsStartsWith, himp]; rfl
    | cons c cs =>
      rw [jsStartsWith, himp]
      rw [jsStartsWith, himp] at hnostart
      by_cases hc : c = '.'
      · subst hc
        simp [List.isPrefixOf] at hnostart
      · simp only [List.isPrefixOf, Bool.and_eq_false_iff]
        left
        simpa using fun h => hc h.symm
  have h2 : jsStartsWith imp "../" = false := by
    cases himp : imp.toList with
    | nil => rw [jsStartsWith, himp]; rfl
    | cons c cs =>
      rw [jsStartsWith, himp]
      rw [jsStartsWith, himp] at hnostart
      by_cases hc : c = '.'
      · subst hc
        simp [List.isPrefixOf] at hnostart
      · simp only [List.isPrefixOf, Bool.and_eq_false_iff]
        left
        simpa using fun h => hc h.symm
  rw [resolveImportPath, if_neg (by simp [h1, h2])]

/-! ## ContextService memoization map (C10) -/

/-- One observable interaction with `ContextService`:
`buildWorkspaceContext` with an active editor (carrying the document's
uri, its live text, and the `buildFreshContext` result the I/O layer
would produce), `buildWorkspaceContext` with no active editor, or
`clearCache`. -/
inductive CtxOp where
  | build (uri : String) (liveText : String) (fresh : WorkspaceContext)
  | buildNoEditor
  | clear
deriving Repr

/-- One step of `ContextService` on its private `contextCache`
(context-service.ts lines 38–61 and 494–496).  On `build`: a cache hit
whose memoized `currentFile?.content` string-equals the live text is
returned without mutation; otherwise the freshly built context is
stored under the document uri.  `buildNoEditor` returns the empty
context without touching the map; `clear` empties it. -/
def ctxStep (cache : JsMap WorkspaceContext) : CtxOp → JsMap WorkspaceContext
  | .build uri liveText fresh =>
    match mapGet cache uri with
    | some cached =>
      if cached.currentFile.map (·.content) = some liveText then cache
      else mapSet cache uri fresh
    | none => mapSet cache uri fresh
  | .buildNoEditor => cache
  | .clear => []

/-- Running a sequence of interactions from the initial empty map. -/
def runCtxOps (ops : List CtxOp) : JsMap WorkspaceContext :=
  ops.foldl ctxStep []

/-- The distinct document uris built since the last `clear`, in first-use
order. -/
def urisSinceClear (ops : List CtxOp) : List String :=
  ops.foldl
    (fun acc op =>
      match op with
      | .build uri _ _ => if acc.contains uri then acc else acc ++ [uri]
      | .buildNoEditor => acc
      | .clear => [])
    []

theorem mapKeys_ctxStep_build (cache : JsMap WorkspaceContext)
    (uri liveText : String) (fresh : WorkspaceContext) :
    mapKeys (ctxStep cache (.build uri liveText fresh))
      = if (mapKeys cache).contains uri then mapKeys cache
        else mapKeys cache ++ [uri] := by
  have hany : (cache.any (fun p => p.1 = uri)) = (mapKeys cache).contains uri := by
    cases hc : (mapKeys cache).contains uri
    · rw [List.any_eq_false]
      intro p hp
      simp only [decide_eq_true_eq]
      intro hpe
      have hm : uri ∈ mapKeys cache := List.mem_map.mpr ⟨p, hp, hpe⟩
      have hc' : List.elem uri (mapKeys cache) = false := hc
      rw [List.elem_iff.mpr hm] at hc'
      simp at hc'
    · rcases List.mem_map.mp (List.elem_iff.mp hc) with ⟨p, hp, hpk⟩
      exact List.any_eq_true.mpr ⟨p, hp, by simp [hpk]⟩
  rw [ctxStep]
  cases hget : mapGet cache uri with
  | some cached =>
    have hc : (mapKeys cache).contains uri = true := by
      rw [mapGet] at hget
      cases hfind : cache.find? (fun p => p.1 = uri) with
      | none => rw [hfind] at hget; cases hget
      | some p =>
        have hp := List.find?_some hfind
        have hpmem := List.mem_of_find?_eq_some hfind
        exact List.elem_iff.mpr (List.mem_map.mpr ⟨p, hpmem, by simpa using hp⟩)
    simp only [hget]
    split
    · simp [hc]
    · simp only [mapKeys_mapSet, hany, hc, if_pos rfl, if_true]
  | none =>
    have hc : (mapKeys cache).contains uri = false := by
      cases hcc : (mapKeys cache).contains uri
      · rfl
      · rcases List.mem_map.mp (List.elem_iff.mp hcc) with ⟨p, hp, hpk⟩
        have hfn : cache.find? (fun p => p.1 = uri) = none := by
          rw [mapGet] at hget
          cases hfind : cache.find? (fun p => p.1 = uri)
          · rfl
          · rw [hfind] at hget; cases hget
        have := List.find?_eq_none.mp hfn p hp
        simp [hpk] at this
    simp only [hget]
    simp [mapKeys_mapSet, hany, hc]

/-- `getEmptyContext` (context-service.ts lines 443–451). -/
def getEmptyContext : WorkspaceContext :=
  ⟨none, [], [], "unknown", "unknown"⟩

theorem le_length_mapSet (m : JsMap β) (k : String) (v : β) :
    m.length ≤ (mapSet m k v).length := by
  unfold mapSet
  split
  · simp
  · simp

theorem runCtxOps_keys_aux (ops : List CtxOp) (cache : JsMap WorkspaceContext)
    (acc : List String) (h : mapKeys cache = acc) :
    mapKeys (ops.foldl ctxStep cache)
      = ops.foldl
          (fun acc op =>
            match op with
            | .build uri _ _ => if acc.contains uri then acc else acc ++ [uri]
            | .buildNoEditor => acc
            | .clear => [])
          acc := by
  induction ops generalizing cache acc with
  | nil => simpa using h
  | cons op rest ih =>
    cases op with
    | build uri liveText fresh =>
      rw [List.foldl_cons, List.foldl_cons]
      refine ih _ _ ?_
      rw [mapKeys_ctxStep_build, h]
    | buildNoEditor =>
      rw [List.foldl_cons, List.foldl_cons]
      exact ih _ _ h
    | clear =>
      rw [List.foldl_cons, List.foldl_cons]
      exact ih _ _ rfl

/-- C10 — the `ContextService` memo map applies no TTL and no size
bound: after any interaction sequence its key set (in insertion order)
is exactly the list of distinct document uris built since the last
`clearCache`; no operation other than `clear` ever shrinks the map (so
between clears its size is monotonically non-decreasing and equals the
number of distinct uris seen); and every `build` with an active editor
leaves an entry keyed by that document's uri. -/
theorem contextCache_memo_unbounded (ops : List CtxOp) :
    mapKeys (runCtxOps ops) = urisSinceClear ops ∧
    (∀ op, op ≠ CtxOp.clear →
      (runCtxOps ops).length ≤ (ctxStep (runCtxOps ops) op).length) ∧
    (∀ uri liveText fresh,
      (mapKeys (ctxStep (runCtxOps ops) (.build uri liveText fresh))).contains uri
        = true) := by
  refine ⟨runCtxOps_keys_aux ops [] [] rfl, ?_, ?_⟩
  · intro op hne
    cases op with
    | build uri liveText fresh =>
      rw [ctxStep]
      cases hget : mapGet (runCtxOps ops) uri with
      | some cached =>
        by_cases hcc : Option.map (fun x => x.content) cached.currentFile = some liveText
        · simp [hcc]
        · simp only [if_neg hcc]
          exact le_length_mapSet _ _ _
      | none => exact le_length_mapSet _ _ _
    | buildNoEditor => exact Nat.le_refl _
    | clear => exact absurd rfl hne
  · intro uri liveText fresh
    rw [mapKeys_ctxStep_build]
    cases hc : (mapKeys (runCtxOps ops)).contains uri
    · rw [if_neg (by simp)]
      exact List.elem_iff.mpr (List.mem_append_right _ (List.mem_singleton_self _))
    · rw [if_pos rfl]
      exact hc

/-- Witness for `contextCache_memo_unbounded` at a concrete trace. -/
theorem contextCache_memo_unbounded_witness :
    mapKeys (runCtxOps [.build "file:///a.ts" "x" getEmptyContext])
      = urisSinceClear [.build "file:///a.ts" "x" getEmptyContext] ∧
    (runCtxOps [.build "file:///a.ts" "x" getEmptyContext]).length
      ≤ (ctxStep (runCtxOps [.build "file:///a.ts" "x" getEmptyContext])
          CtxOp.buildNoEditor).length := by
  have h := contextCache_memo_unbounded [.build "file:///a.ts" "x" getEmptyContext]
  exact ⟨h.1, h.2.1 CtxOp.buildNoEditor (by intro hh; cases hh)⟩

/-! ## SearchService (src/ai-learning-tool/src/search-service.ts) -/

/-- `SearchResult` from search-service.ts. -/
structure SearchResult where
  uri : String
  fileName : String
  relativePath : String
  lineNumber : Nat
  lineText : String
  matchText : String
  contextBefore : List String
  contextAfter : List String
  relevanceScore : Int
deriving DecidableEq, Repr

/-- `SearchOptions` from search-service.ts (all fields optional). -/
structure SearchOptions where
  includeComments : Option Bool := none
  includeStrings : Option Bool := none
  caseSensitive : Option Bool := none
  wholeWord : Option Bool := none
  useRegex : Option Bool := none
  fileTypes : Option (List String) := none
  excludePatterns : Option (List String) := none
  maxResults : Option Nat := none
  contextLines : Option Nat := none
deriving Repr

/-- The `Required<SearchOptions>` produced by `normalizeSearchOptions`. -/
structure NormSearchOptions where
  includeComments : Bool
  includeStrings : Bool
  caseSensitive : Bool
  wholeWord : Bool
  useRegex : Bool
  fileTypes : List String
  excludePatterns : List String
  maxResults : Nat
  contextLines : Nat
deriving Repr

/-- `defaultExcludePatterns` (search-service.ts lines 30–39). -/
def defaultExcludePatterns : List String :=
  ["**/node_modules/**", "**/dist/**", "**/build/**", "**/out/**",
   "**/.git/**", "**/*.min.js", "**/*.map", "**/coverage/**"]

/-- `normalizeSearchOptions` (search-service.ts lines 460–472): `??`
defaulting of every field. -/
def normalizeSearchOptions (o : SearchOptions) : NormSearchOptions :=
  { includeComments := o.includeComments.getD true
    includeStrings := o.includeStrings.getD true
    caseSensitive := o.caseSensitive.getD false
    wholeWord := o.wholeWord.getD false
    useRegex := o.useRegex.getD false
    fileTypes := o.fileTypes.getD ["**/*"]
    excludePatterns := o.excludePatterns.getD defaultExcludePatterns
    maxResults := o.maxResults.getD 50
    contextLines := o.contextLines.getD 2 }

/-- `jsToLower` — `String.prototype.toLowerCase` (ASCII). -/
def jsToLower (s : String) : String := ⟨s.toList.map Char.toLower⟩

/-- `jsTrim` — `String.prototype.trim`. -/
def jsTrim (s : String) : String := ⟨jsTrimList s.toList⟩

/-- Non-overlapping left-to-right match positions of a literal needle,
advancing past zero-width matches — the semantics of `findMatches`
(search-service.ts lines 273–293) for the escaped-literal regex built by
`buildSearchRegex` when `useRegex`/`wholeWord` are off (their defaults;
escaping all metacharacters makes the pattern match the query string
literally).  The `skip` counter realizes the `lastIndex` advance past a
just-emitted match (`max 1 len` positions in total, one consumed by the
structural step). -/
def matchPositionsGo (needle : List Char) : List Char → Nat → Nat → List Nat
  | [], pos, skip => if needle.isEmpty && skip = 0 then [pos] else []
  | c :: rest, pos, skip =>
    if skip > 0 then matchPositionsGo needle rest (pos + 1) (skip - 1)
    else if needle.isPrefixOf (c :: rest) then
      pos :: matchPositionsGo needle rest (pos + 1) (max 1 needle.length - 1)
    else matchPositionsGo needle rest (pos + 1) 0

/-- `findMatches` on one line: `(matchText, index)` pairs; the
case-insensitive `'gi'` flag (default) folds both sides to lower case,
while `matchText` keeps the original slice of the line. -/
def findMatches (line query : String) (caseSensitive : Bool) :
    List (String × Nat) :=
  let hline := if caseSensitive then line.toList else line.toList.map Char.toLower
  let hq := if caseSensitive then query.toList else query.toList.map Char.toLower
  (matchPositionsGo hq hline 0 0).map
    (fun i => (⟨(line.toList.drop i).take hq.length⟩, i))

/-- `shouldIncludeMatch` (search-service.ts lines 295–321). -/
def shouldIncludeMatch (line : String) (matchIndex : Nat)
    (includeComments includeStrings : Bool) : Bool :=
  let trimmedLine := jsTrim line
  if !includeComments &&
      (jsStartsWith trimmedLine "//" || jsStartsWith trimmedLine "#" ||
        jsStartsWith trimmedLine "/*" || jsIncludes line "*/") then
    false
  else
    let beforeMatch := line.toList.take matchIndex
    if !includeStrings &&
        (beforeMatch.countP (fun c => c = '\x27') % 2 = 1 ||
          beforeMatch.countP (fun c => c = '"') % 2 = 1 ||
          beforeMatch.countP (fun c => c = '\x60') % 2 = 1) then
      false
    else true

/-- `calculateRelevanceScore` (search-service.ts lines 333–358), in
tenths: `+10` exact-match bonus ↦ 100, `+5` filename bonus ↦ 50, `+2`
per keyword ↦ 20, `Math.max(0, 10 - matchText.length / 10)` ↦
`max 0 (100 - matchText.length)` (exact under the ×10 scaling). -/
def calculateRelevanceScore (matchText query fileName line : String) : Int :=
  let exactBonus : Int := if jsToLower matchText = jsToLower query then 100 else 0
  let fileBonus : Int := if jsIncludes (jsToLower fileName) (jsToLower query) then 50 else 0
  let contextKeywords :=
    ["function", "class", "interface", "export", "import", "const", "let", "var"]
  let keywordBonus : Int :=
    20 * ((contextKeywords.filter (fun k => jsIncludes (jsToLower line) k)).length : Int)
  let lengthBonus : Int := max 0 (100 - (matchText.length : Int))
  exactBonus + fileBonus + keywordBonus + lengthBonus

/-- `getContextLines` (search-service.ts lines 323–331); `before = true`
is the `'before'` direction. -/
def getContextLines (lines : List String) (currentLine contextSize : Nat) :
    Bool → List String
  | true => (lines.take currentLine).drop (currentLine - contextSize)
  | false =>
    (lines.drop (currentLine + 1)).take
      (min lines.length (currentLine + contextSize + 1) - (currentLine + 1))

/-- `text.split('\n')` on char lists (JS `String.prototype.split` with
a single-character separator), structurally recursive. -/
def splitLinesGo (sep : Char) : List Char → List Char → List String
  | [], acc => [⟨acc.reverse⟩]
  | x :: rest, acc =>
    if x = sep then ⟨acc.reverse⟩ :: splitLinesGo sep rest []
    else splitLinesGo sep rest (x :: acc)

/-- `content.split('\n')`. -/
def splitLines (s : String) : List String :=
  splitLinesGo '\n' s.toList []

/-- A workspace file as the search loop sees it (uri, basename,
workspace-relative path, content) — the `findFiles` glob enumeration is
I/O and is abstracted into this input list. -/
structure WsFile where
  uri : String
  fileName : String
  relativePath : String
  content : String
deriving Repr

/-- `searchFile` (search-service.ts lines 213–255) for the literal
(default) pattern path: split into lines, scan each line, filter through
`shouldIncludeMatch`, attach context and relevance. -/
def searchFile (f : WsFile) (query : String) (o : NormSearchOptions) :
    List SearchResult :=
  let lines := splitLines f.content
  let ctxN := if o.contextLines = 0 then 1 else o.contextLines
  (lines.enum).foldr
    (fun iline acc =>
      (((findMatches iline.2 query o.caseSensitive).filter
          (fun m => shouldIncludeMatch iline.2 m.2 o.includeComments o.includeStrings)).map
        (fun m =>
          { uri := f.uri, fileName := f.fileName, relativePath := f.relativePath
            lineNumber := iline.1 + 1, lineText := iline.2, matchText := m.1
            contextBefore := getContextLines lines iline.1 ctxN true
            contextAfter := getContextLines lines iline.1 ctxN false
            relevanceScore := calculateRelevanceScore m.1 query f.fileName iline.2 }))
        ++ acc)
    []

/-- Descending relevance order used by the final sort callback
`(a, b) => b.relevanceScore - a.relevanceScore`. -/
def resScoreGE (a b : SearchResult) : Prop :=
  b.relevanceScore ≤ a.relevanceScore

instance : DecidableRel resScoreGE := fun a b => by
  unfold resScoreGE; infer_instance

instance : IsTotal SearchResult resScoreGE :=
  ⟨fun a b => le_total b.relevanceScore a.relevanceScore⟩

instance : IsTrans SearchResult resScoreGE :=
  ⟨fun _ _ _ h h' => le_trans h' h⟩

/-- `searchWorkspace` (search-service.ts lines 51–69): collect per-file
results, sort by relevance descending (stable) and truncate to
`maxResults`.  NOTE: no deduplication happens here. -/
def searchWorkspace (files : List WsFile) (query : String)
    (opts : SearchOptions) : List SearchResult :=
  let o := normalizeSearchOptions opts
  let results := files.foldr (fun f acc => searchFile f query o ++ acc) []
  (List.insertionSort resScoreGE results).take o.maxResults

/-- The `(uri, lineNumber)` deduplication key
`${result.uri.toString()}:${result.lineNumber}` (search-service.ts
line 451). -/
def resKey (r : SearchResult) : String :=
  r.uri ++ ":" ++ toString r.lineNumber

/-- `deduplicateResults` (search-service.ts lines 448–458): filter with
a mutable `seen` set — keeps the FIRST occurrence of each key.  It is
invoked only by `searchDefinitions`. -/
def dedupResultsGo (seen : List String) : List SearchResult → List SearchResult
  | [] => []
  | r :: rest =>
    if seen.contains (resKey r) then dedupResultsGo seen rest
    else r :: dedupResultsGo (resKey r :: seen) rest

/-- `deduplicateResults` entry point. -/
def deduplicateResults (results : List SearchResult) : List SearchResult :=
  dedupResultsGo [] results

/-- C8 — counterexample.  `searchWorkspace` performs NO `(uri, line)`
deduplication: a single default search for `"foo"` over one file whose
only line is `"foo foo"` returns TWO `SearchResult`s for the pair
`(file:///f.ts, 1)`, where the claim demands exactly one. -/
theorem searchWorkspace_keeps_duplicate_pair :
    ((searchWorkspace [⟨"file:///f.ts", "f.ts", "f.ts", "foo foo"⟩] "foo" {}).filter
      (fun r => r.uri = "file:///f.ts" && r.lineNumber = 1)).length = 2 := by
  decide

theorem dedupResultsGo_first (results : List SearchResult) (seen : List String) :
    ∀ r ∈ dedupResultsGo seen results,
      seen.contains (resKey r) = false ∧
      results.find? (fun x => resKey x = resKey r) = some r := by
  induction results generalizing seen with
  | nil =>
    intro r hr
    cases hr
  | cons f rest ih =>
    intro r hr
    rw [dedupResultsGo] at hr
    by_cases hc : seen.contains (resKey f)
    · rw [if_pos hc] at hr
      obtain ⟨h1, h2⟩ := ih seen r hr
      have hne : ¬ resKey f = resKey r := by
        intro h
        rw [h, h1] at hc
        cases hc
      exact ⟨h1, by rw [find?_cons_neg _ _ _ (by simpa using hne)]; exact h2⟩
    · rw [if_neg hc] at hr
      rcases List.mem_cons.mp hr with rfl | hr'
      · exact ⟨by simpa using hc, by rw [find?_cons_pos _ _ _ (by simp)]⟩
      · obtain ⟨h1, h2⟩ := ih (resKey f :: seen) r hr'
        simp only [List.contains_cons, Bool.or_eq_false_iff, beq_eq_false_iff_ne,
          ne_eq] at h1
        exact ⟨h1.2, by
          rw [find?_cons_neg _ _ _ (by simpa using fun h => h1.1 h.symm)]
          exact h2⟩

theorem dedupResultsGo_nodup (results : List SearchResult) (seen : List String) :
    ((dedupResultsGo seen results).map resKey).Nodup := by
  induction results generalizing seen with
  | nil => exact List.Pairwise.nil
  | cons f rest ih =>
    rw [dedupResultsGo]
    by_cases hc : seen.contains (resKey f)
    · rw [if_pos hc]
      exact ih seen
    · rw [if_neg hc]
      rw [List.map_cons, List.nodup_cons]
      refine ⟨?_, ih (resKey f :: seen)⟩
      intro hmem
      rcases List.mem_map.mp hmem with ⟨r, hr, hkey⟩
      have hks := (dedupResultsGo_first rest (resKey f :: seen) r hr).1
      rw [← hkey] at hks
      simp at hks

/-- C8 (amended) — `searchWorkspace` itself never deduplicates by
`(uri, lineNumber)` (see `searchWorkspace_keeps_duplicate_pair`); the
only `(uri, lineNumber)` deduplication in the service is
`deduplicateResults`, invoked by `searchDefinitions`, and it keeps, for
each key, exactly the FIRST result in input order — not necessarily the
one with the highest relevance score among the duplicates. -/
theorem deduplicateResults_spec (results : List SearchResult) :
    (∀ r ∈ deduplicateResults results,
      results.find? (fun x => resKey x = resKey r) = some r) ∧
    ((deduplicateResults results).map resKey).Nodup :=
  ⟨fun r hr => (dedupResultsGo_first results [] r hr).2,
    dedupResultsGo_nodup results []⟩

/-- Witness for `deduplicateResults_spec` at a concrete input: two
results on the same `(uri, line)`; the kept one is the first, even
though its score (5) is lower than the duplicate's (12). -/
theorem deduplicateResults_spec_witness :
    ([⟨"u", "f", "f", 1, "l", "m", [], [], 5⟩,
        ⟨"u", "f", "f", 1, "l", "m", [], [], 12⟩] : List SearchResult).find?
      (fun x => resKey x = resKey (⟨"u", "f", "f", 1, "l", "m", [], [], 5⟩ : SearchResult))
      = some ⟨"u", "f", "f", 1, "l", "m", [], [], 5⟩ :=
  (deduplicateResults_spec
    ([⟨"u", "f", "f", 1, "l", "m", [], [], 5⟩,
        ⟨"u", "f", "f", 1, "l", "m", [], [], 12⟩] : List SearchResult)).1
    ⟨"u", "f", "f", 1, "l", "m", [], [], 5⟩ (by decide)

/-- Witness instantiation for `relatedFiles_merge_spec` (C6 amended) at
a concrete pool. -/
theorem relatedFiles_merge_spec_witness :
    (([⟨"file:///m.ts", "m.ts", "m.ts", "c", "typescript", true, 8⟩]
        ++ [] ++ [] ++ []) : List FileContext).find?
      (fun f => f.uri = "file:///m.ts")
      = some ⟨"file:///m.ts", "m.ts", "m.ts", "c", "typescript", true, 8⟩ :=
  (relatedFiles_merge_spec
      [⟨"file:///m.ts", "m.ts", "m.ts", "c", "typescript", true, 8⟩] [] [] []).2.2
    ⟨"file:///m.ts", "m.ts", "m.ts", "c", "typescript", true, 8⟩ (by decide)

/-! ## AiCompletionProvider (src/ai-learning-tool/src/completion-provider.ts)

The provider's concurrency-relevant state is the mutable fields
`isProcessing : boolean` and `debounceTimer` (at most one pending timer:
each new schedule first runs `clearTimeout`).  The event loop is
single-threaded; the atomic turns are (a) the synchronous body of
`provideInlineCompletionItems`, (b) the start of the debounce-timer
callback up to its first `await` (lines 39–49: set `isProcessing`,
check cancellation), and (c) the `finally` block that ends the callback
(lines 62–64).  `running` is a history variable counting callbacks that
have started and not yet run their `finally` — the number of requests
"in flight". -/

/-- How the in-flight work concluded: a completion, a thrown error, or
cancellation.  The `finally` block runs in every case. -/
inductive ReqOutcome where
  | success (completion : String)
  | error
  | cancelled
deriving DecidableEq, Repr

/-- Provider state: the two source fields plus the `running` history
counter. -/
structure ProviderState where
  isProcessing : Bool
  pendingTimer : Bool
  running : Nat
deriving DecidableEq, Repr

/-- Initial state (fields of a fresh `AiCompletionProvider`). -/
def initProvider : ProviderState :=
  ⟨false, false, 0⟩

/-- Result of the synchronous part of `provideInlineCompletionItems`:
either an immediate `undefined` (no suggestion, nothing scheduled) or a
pending promise with a (re)armed debounce timer. -/
inductive CallResult where
  | immediateNone
  | pending
deriving DecidableEq, Repr

/-- Synchronous body of `provideInlineCompletionItems` (lines 16–38):
`if (this.isProcessing) return undefined;` then the trigger gate, then
`clearTimeout` + `setTimeout` (which leaves exactly one pending
timer). -/
def callStep (shouldTrigger : Bool) (s : ProviderState) :
    CallResult × ProviderState :=
  if s.isProcessing then (.immediateNone, s)
  else if !shouldTrigger then (.immediateNone, s)
  else (.pending, { s with pendingTimer := true })

/-- The debounce timer fires (only possible while one is pending):
lines 39–41 — the callback starts and sets `isProcessing = true`. -/
def fireStep (s : ProviderState) : Option ProviderState :=
  if s.pendingTimer then
    some { s with pendingTimer := false, isProcessing := true,
                  running := s.running + 1 }
  else none

/-- The in-flight callback resolves with outcome `o` (success, error or
cancellation) and its `finally` runs (lines 62–64):
`this.isProcessing = false` in every case. -/
def finishStep (o : ReqOutcome) (s : ProviderState) : Option ProviderState :=
  if s.running > 0 then
    some { s with isProcessing := false, running := s.running - 1 }
  else none

/-- States reachable from a fresh provider by event-loop turns. -/
inductive ProviderReachable : ProviderState → Prop where
  | init : ProviderReachable initProvider
  | call (b : Bool) {s : ProviderState} (h : ProviderReachable s) :
      ProviderReachable (callStep b s).2
  | fire {s s' : ProviderState} (h : ProviderReachable s)
      (hs : fireStep s = some s') : ProviderReachable s'
  | finish (o : ReqOutcome) {s s' : ProviderState} (h : ProviderReachable s)
      (hs : finishStep o s = some s') : ProviderReachable s'

theorem providerInvariant {s : ProviderState} (h : ProviderReachable s) :
    s.running ≤ 1 ∧ (s.isProcessing = true ↔ s.running = 1) ∧
      (s.pendingTimer = true → s.running = 0) := by
  induction h with
  | init => exact ⟨by decide, by decide, by decide⟩
  | call b h ih =>
    rename_i s
    by_cases hp : s.isProcessing
    · simpa [callStep, hp] using ih
    · cases hb : b
      · simpa [callStep, hp] using ih
      · obtain ⟨i1, i2, i3⟩ := ih
        have hr0 : s.running = 0 := by
          cases hr : s.running with
          | zero => rfl
          | succ n => exact absurd (i2.mpr (by omega)) hp
        have hstate : (callStep true s).2 = { s with pendingTimer := true } := by
          simp [callStep, hp]
        rw [hstate]
        exact ⟨by simpa using i1, by simpa using i2, fun _ => hr0⟩
  | fire h hs ih =>
    rename_i s s'
    rw [fireStep] at hs
    by_cases hp : s.pendingTimer
    · rw [if_pos hp] at hs
      obtain ⟨i1, i2, i3⟩ := ih
      have hr0 : s.running = 0 := i3 (by simpa using hp)
      cases hs
      exact ⟨by simp [hr0], by simp [hr0], by simp⟩
    · rw [if_neg hp] at hs
      cases hs
  | finish o h hs ih =>
    rename_i s s'
    rw [finishStep] at hs
    by_cases hr : s.running > 0
    · rw [if_pos hr] at hs
      obtain ⟨i1, i2, i3⟩ := ih
      cases hs
      refine ⟨by simp; omega, by simp; omega, fun hpt => by simp; omega⟩
    · rw [if_neg hr] at hs
      cases hs

/-- C9 — single-flight.  In every reachable provider state: (a) at most
one completion request is in flight; (b) while one is in flight
(`running = 1`, equivalently `isProcessing`), any further call to
`provideInlineCompletionItems` returns `undefined` immediately and
leaves the state unchanged — in particular it schedules no new timer;
(c) the `finally` block clears `isProcessing` whenever a request
finishes, for every outcome including error and cancellation. -/
theorem provider_single_flight {s : ProviderState} (h : ProviderReachable s) :
    s.running ≤ 1 ∧
    (1 ≤ s.running → ∀ b, callStep b s = (.immediateNone, s)) ∧
    (∀ o s', finishStep o s = some s' → s'.isProcessing = false) := by
  obtain ⟨i1, i2, i3⟩ := providerInvariant h
  refine ⟨i1, ?_, ?_⟩
  · intro hr b
    have hp : s.isProcessing = true := i2.mpr (by omega)
    rw [callStep, if_pos (by simp [hp])]
  · intro o s' hs
    rw [finishStep] at hs
    by_cases hr : s.running > 0
    · rw [if_pos hr] at hs
      cases hs
      rfl
    · rw [if_neg hr] at hs
      cases hs

/-- Witness for `provider_single_flight` at a concrete reachable state:
one in-flight request (timer armed by a call, then fired). -/
theorem provider_single_flight_witness :
    (callStep true (⟨true, false, 1⟩ : ProviderState))
      = (CallResult.immediateNone, (⟨true, false, 1⟩ : ProviderState)) := by
  have hreach : ProviderReachable (⟨true, false, 1⟩ : ProviderState) := by
    have h1 : ProviderReachable (callStep true initProvider).2 :=
      ProviderReachable.call true ProviderReachable.init
    have h2 : ProviderReachable (⟨false, true, 0⟩ : ProviderState) := by
      simpa [callStep, initProvider] using h1
    exact ProviderReachable.fire h2 (by decide)
  exact (provider_single_flight hreach).2.1 (by decide) true
